import Mathlib

/-!
Verification development for the project-tracking CLI.

The definitions below are shallow embeddings of the Rust source:
`src/project.rs` (manifest store, discovery, lifecycle operations) and
`src/archive.rs` (archive/restore pipeline).  File contents are modelled
as byte lists, paths as lists of name components, JSON numbers as
rationals (exact values; the claims under study do not depend on binary
floating-point rounding).
-/

namespace Proj

/-! ## Manifest store (`src/project.rs`: `set_project_vars`, `get_project_var`)

A manifest document is a JSON object, modelled as an association list in
insertion order.  `utils::read_json` yields an empty object on any read
failure, so the operations are total over documents. -/

inductive JVal where
  | jstr (s : String)
  | jnum (q : ℚ)
  | jbool (b : Bool)
  | jnull
  deriving DecidableEq

abbrev JDoc := List (String × JVal)

/-- Model of serde_json index assignment `data[key] = v` on an object:
replace an existing binding, otherwise add one. -/
def setIndex : JDoc → String → JVal → JDoc
  | [], k, v => [(k, v)]
  | (k', v') :: rest, k, v =>
    if k' = k then (k, v) :: rest else (k', v') :: setIndex rest k v

/-- Model of `data.get(key)` on a JSON object. -/
def getIndex (doc : JDoc) (k : String) : Option JVal :=
  (doc.find? (fun e => e.1 = k)).map (fun e => e.2)

/-- Model of `value.parse::<f64>()` restricted to the plain decimal
grammar `[+-] digits [. digits]` (no exponent, no inf/nan); the exact
rational value stands in for the parsed double.  Helper: decimal value of
a digit string. -/
def digitsVal (l : List Char) : ℕ :=
  l.foldl (fun a c => 10 * a + (c.toNat - 48)) 0

def parseDec (l : List Char) : Option ℚ :=
  let i := l.takeWhile (fun c => c ≠ '.')
  let rest := l.drop i.length
  match rest with
  | [] =>
    if i ≠ [] ∧ i.all Char.isDigit then some ((digitsVal i : ℚ)) else none
  | _ :: f =>
    if f.contains '.' then none
    else if (i ≠ [] ∨ f ≠ []) ∧ i.all Char.isDigit ∧ f.all Char.isDigit then
      some ((digitsVal i : ℚ) + (digitsVal f : ℚ) / ((10 : ℚ) ^ f.length))
    else none

def parseF64 (s : String) : Option ℚ :=
  match s.data with
  | [] => none
  | '-' :: r => (parseDec r).map (fun q => -q)
  | '+' :: r => parseDec r
  | l => parseDec l

/-- Embedding of `set_project_vars` (src/project.rs:218): for the key
`completion`, a value that parses as a float is stored as a JSON number;
every other key (and an unparsable `completion`) is stored verbatim as a
JSON string. -/
def set_project_vars (doc : JDoc) (vars : List (String × String)) : JDoc :=
  vars.foldl
    (fun d kv =>
      if kv.1 = ("completion") then
        match parseF64 kv.2 with
        | some f => setIndex d kv.1 (JVal.jnum f)
        | none => setIndex d kv.1 (JVal.jstr kv.2)
      else setIndex d kv.1 (JVal.jstr kv.2))
    doc

/-- Embedding of `get_project_var` (src/project.rs:238): look the key up
in the manifest document. -/
def get_project_var (doc : JDoc) (k : String) : Option JVal :=
  getIndex doc k

theorem getIndex_setIndex (doc : JDoc) (k : String) (v : JVal) :
    getIndex (setIndex doc k v) k = some v := by
  induction doc with
  | nil => simp [setIndex, getIndex]
  | cons e rest ih =>
    by_cases h : e.1 = k
    · simp [setIndex, getIndex, h]
    · simpa [setIndex, getIndex, h, List.find?] using ih

/-! ## Progress bar (`src/project.rs`: `list_projects`, progress display) -/

/-- Bar width used by the progress display (`let bar_len = 20`). -/
def barLen : ℕ := 20

/-- Model of Rust `f64::round`: round half away from zero. -/
def rustRound (x : ℚ) : ℤ :=
  if 0 ≤ x then ⌊x + 1 / 2⌋ else -⌊-x + 1 / 2⌋

/-- Model of `let filled = (completion * bar_len as f64).round() as usize`
(the `as usize` cast saturates at zero for negative values). -/
def filled (completion : ℚ) : ℕ :=
  (rustRound (completion * (barLen : ℚ))).toNat

/-- Model of `let empty = bar_len - filled`: unsigned subtraction that
panics (modelled as `none`) when `filled` exceeds `bar_len`. -/
def progressEmpty (completion : ℚ) : Option ℕ :=
  if filled completion ≤ barLen then some (barLen - filled completion) else none

theorem parseF64_sample : parseF64 ("0.42") = some (21 / 50) := by
  show parseDec ['0', '.', '4', '2'] = some (21 / 50)
  rw [parseDec]
  simp +decide [List.takeWhile, digitsVal]
  norm_num

/-- C8: `set key=value` followed by `get key` yields exactly the JSON
string `value` for any key other than `completion`; for `completion`,
`set completion=0.42` followed by `get completion` yields the JSON number
0.42, not the string. -/
theorem set_get_roundtrip (doc : JDoc) (k v : String) (h : k ≠ ("completion")) :
    get_project_var (set_project_vars doc [(k, v)]) k = some (JVal.jstr v) ∧
    get_project_var (set_project_vars doc [(("completion"), ("0.42"))]) ("completion")
      = some (JVal.jnum (21 / 50)) := by
  constructor
  · simp [set_project_vars, h, get_project_var, getIndex_setIndex]
  · simp [set_project_vars, parseF64_sample, get_project_var, getIndex_setIndex]

/-- Witness for C8 at concrete inputs. -/
theorem set_get_roundtrip_witness :
    get_project_var (set_project_vars [] [(("name"), ("foo"))]) ("name")
      = some (JVal.jstr ("foo")) ∧
    get_project_var (set_project_vars [] [(("completion"), ("0.42"))]) ("completion")
      = some (JVal.jnum (21 / 50)) :=
  ⟨(set_get_roundtrip [] ("name") ("foo") (by decide)).1,
   (set_get_roundtrip [] ("name") ("foo") (by decide)).2⟩

/-- C10 (amended): with `completion = c` in `[0, 1]` the computation
`empty = bar_len - filled` never underflows; the unsigned subtraction
underflows (panics) exactly when `round(20 c) > 20`, which requires
`c ≥ 41/40 = 1.025` — values of `c` in `(1, 41/40)` still round to a
`filled` of at most 20 and do not underflow. -/
theorem progress_bar_underflow (c : ℚ) :
    (0 ≤ c → c ≤ 1 → (progressEmpty c).isSome = true) ∧
    (41 / 40 ≤ c → progressEmpty c = none) := by
  constructor
  · intro h0 h1
    have hR : rustRound (c * (barLen : ℚ)) ≤ 20 := by
      rw [rustRound, if_pos (by positivity)]
      have hle : c * ((barLen : ℚ)) + 1 / 2 ≤ 41 / 2 := by
        have : (barLen : ℚ) = 20 := by norm_num [barLen]
        rw [this]; nlinarith
      calc ⌊c * (barLen : ℚ) + 1 / 2⌋ ≤ ⌊(41 : ℚ) / 2⌋ := Int.floor_le_floor hle
        _ = 20 := by norm_num [Int.floor_eq_iff]
    have hf : filled c ≤ barLen := by
      rw [filled]
      exact Int.toNat_le.mpr (by exact_mod_cast hR)
    simp [progressEmpty, hf]
  · intro hc
    have h0 : (0 : ℚ) ≤ c := le_trans (by norm_num) hc
    have hR : (21 : ℤ) ≤ rustRound (c * (barLen : ℚ)) := by
      rw [rustRound, if_pos (by positivity)]
      refine Int.le_floor.mpr ?_
      have : (barLen : ℚ) = 20 := by norm_num [barLen]
      rw [this]; push_cast; nlinarith
    have hf : ¬ filled c ≤ barLen := by
      rw [filled]
      intro hcon
      have h2 : rustRound (c * (barLen : ℚ)) ≤ (barLen : ℤ) := Int.toNat_le.mp hcon
      have h3 : ((barLen : ℤ)) = 20 := by norm_num [barLen]
      omega
    simp [progressEmpty, hf]

/-- Witness for C10 at concrete inputs. -/
theorem progress_bar_underflow_witness :
    (progressEmpty (1 / 2)).isSome = true ∧ progressEmpty 2 = none :=
  ⟨(progress_bar_underflow (1 / 2)).1 (by norm_num) (by norm_num),
   (progress_bar_underflow 2).2 (by norm_num)⟩

/-- Counterexample for C10 as stated: the manifest value `c = 1.01` is
greater than 1, yet `filled = round(20.2) = 20` does not exceed
`bar_len`, the subtraction does not underflow, and the listing does not
panic (it prints an all-full bar). -/
theorem progress_bar_cex :
    (1 : ℚ) < 101 / 100 ∧ progressEmpty (101 / 100) = some 0 := by
  constructor
  · norm_num
  · norm_num [progressEmpty, filled, rustRound, barLen]

/-! ## Zip entry-name sanitization (`src/archive.rs`: `restore_archive`)

`restore_archive` joins the destination with `file.mangled_name()`
(src/archive.rs:171).  `mangled_name` is the zip crate's sanitizer: it
truncates the stored name at the first NUL byte, splits on both `/` and
`\`, and drops every component that is empty, `.` or `..`.  Paths are
modelled as lists of name components. -/

def isSep (c : Char) : Bool := c = '/' ∨ c = '\\'

def splitSeps : List Char → List (List Char)
  | [] => [[]]
  | c :: cs =>
    if isSep c then [] :: splitSeps cs
    else
      match splitSeps cs with
      | [] => [[c]]
      | g :: gs => (c :: g) :: gs

def keepComponent (g : List Char) : Bool :=
  g ≠ [] ∧ g ≠ ['.'] ∧ g ≠ ['.', '.']

/-- Model of the zip crate `mangled_name` applied to a stored entry
name. -/
def mangledName (s : String) : List String :=
  (((splitSeps (s.data.takeWhile (fun c => c ≠ (Char.ofNat 0)))).filter
      keepComponent).map (fun g => String.mk g))

/-- Path resolution step: drop empty and `.` segments and let `..` pop
the last resolved segment (at the root it pops nothing). -/
def resolveStep (acc : List String) (seg : String) : List String :=
  if seg = ("") ∨ seg = (".") then acc
  else if seg = ("..") then acc.dropLast
  else acc ++ [seg]

/-- Path resolution, mirroring how the operating system resolves the
joined extraction path. -/
def resolveSegs (p : List String) : List String := p.foldl resolveStep []

theorem mangledName_clean (s : String) :
    ∀ g ∈ mangledName s, g ≠ ("") ∧ g ≠ (".") ∧ g ≠ ("..") := by
  intro g hg
  rw [mangledName] at hg
  obtain ⟨l, hl, rfl⟩ := List.mem_map.mp hg
  have hk := List.of_mem_filter hl
  rw [keepComponent] at hk
  simp only [decide_eq_true_eq, Bool.and_eq_true, decide_not, Bool.not_eq_true',
    decide_eq_false_iff_not] at hk
  refine ⟨?_, ?_, ?_⟩
  · intro h
    exact hk.1 (by simpa using congrArg String.data h)
  · intro h
    exact hk.2.1 (by simpa using congrArg String.data h)
  · intro h
    exact hk.2.2 (by simpa using congrArg String.data h)

theorem foldl_resolveStep_clean (c : List String)
    (hc : ∀ g ∈ c, g ≠ ("") ∧ g ≠ (".") ∧ g ≠ ("..")) :
    ∀ acc : List String, List.foldl resolveStep acc c = acc ++ c := by
  induction c with
  | nil => simp
  | cons g gs ih =>
    intro acc
    have hg := hc g (by simp)
    rw [List.foldl_cons,
      show resolveStep acc g = acc ++ [g] by
        rw [resolveStep, if_neg (by simp [hg.1, hg.2.1]), if_neg (by simp [hg.2.2])]]
    rw [ih (fun x hx => hc x (by simp [hx])) (acc ++ [g])]
    simp

theorem resolveSegs_append_clean (c : List String)
    (hc : ∀ g ∈ c, g ≠ ("") ∧ g ≠ (".") ∧ g ≠ ("..")) (d : List String) :
    resolveSegs (d ++ c) = resolveSegs d ++ c := by
  rw [resolveSegs, List.foldl_append, foldl_resolveStep_clean c hc]
  rfl

/-- C2: every entry path extracted by `restore_archive` stays inside the
destination: the sanitized component list of an entry name contains no
`..` (or `.`/empty) segment, so joining it to the destination and
resolving yields the resolved destination extended by exactly those
components — never a path outside the destination root. -/
theorem restore_entry_inside_dest (dest : List String) (entryName : String) :
    ("..") ∉ mangledName entryName ∧
    resolveSegs (dest ++ mangledName entryName) =
      resolveSegs dest ++ mangledName entryName := by
  refine ⟨?_, resolveSegs_append_clean _ (mangledName_clean entryName) dest⟩
  intro h
  exact (mangledName_clean entryName _ h).2.2 rfl

/-! ## Archive round trip (`src/archive.rs`: `archive_project` write loop
and `restore_archive` extraction loop)

A project's directory tree is modelled as files (byte lists) and
directories (ordered child lists).  `archive_project` walks the tree and
stores one archive entry per regular file, named by its relative path
with `/`-joined components (src/archive.rs:57); directories produce no
entries.  `restore_archive` starts from the freshly created destination
directory and replays each entry (src/archive.rs:169). -/

inductive ATree where
  | file (content : List ℕ)
  | dir (entries : List (String × ATree))

mutual

def walkFiles : ATree → List (List String × List ℕ)
  | .file c => [([], c)]
  | .dir es => walkList es

def walkList : List (String × ATree) → List (List String × List ℕ)
  | [] => []
  | e :: rest => (walkFiles e.2).map (fun q => (e.1 :: q.1, q.2)) ++ walkList rest

end

/-- Relative-path string of a component list, joined with `/` as the
archive writer does. -/
def joinData : List String → List Char
  | [] => []
  | [x] => x.data
  | x :: y :: ys => x.data ++ '/' :: joinData (y :: ys)

def joinPath (p : List String) : String := String.mk (joinData p)

/-- Embedding of the archive write loop: one `(entry name, content)` pair
per regular file of the tree. -/
def archiveEntries (t : ATree) : List (String × List ℕ) :=
  (walkFiles t).map (fun q => (joinPath q.1, q.2))

/-- Fresh chain of directories ending in a file, as produced by
`create_dir_all(parent)` followed by `File::create`. -/
def createAt : List String → List ℕ → ATree
  | [], c => .file c
  | n :: p, c => .dir [(n, createAt p c)]

/-- Model of `entry.path()` lookup among a directory's children. -/
def lookupEntry (es : List (String × ATree)) (n : String) : Option ATree :=
  (es.find? (fun e => e.1 = n)).map (fun e => e.2)

mutual

/-- Write one file at a component path below `t`: missing intermediate
directories are created, an existing file at the final path is
overwritten, and `none` models the I/O error raised when a directory sits
where a file must go (or vice versa). -/
def insertAt : ATree → List String → List ℕ → Option ATree
  | .file _, [], c => some (.file c)
  | .dir _, [], _ => none
  | .file _, _ :: _, _ => none
  | .dir es, n :: p, c => (insertEntries es n p c).map (fun l => .dir l)

def insertEntries :
    List (String × ATree) → String → List String → List ℕ → Option (List (String × ATree))
  | [], n, p, c => some [(n, createAt p c)]
  | e :: rest, n, p, c =>
    if e.1 = n then (insertAt e.2 p c).map (fun t => (n, t) :: rest)
    else (insertEntries rest n p c).map (fun l => e :: l)

end

def createDirs : List String → ATree
  | [] => .dir []
  | n :: p => .dir [(n, createDirs p)]

mutual

/-- Model of `fs::create_dir_all` below a tree node. -/
def mkdirAt : ATree → List String → Option ATree
  | .file _, [] => none
  | .dir es, [] => some (.dir es)
  | .file _, _ :: _ => none
  | .dir es, n :: p => (mkdirEntries es n p).map (fun l => .dir l)

def mkdirEntries : List (String × ATree) → String → List String → Option (List (String × ATree))
  | [], n, p => some [(n, createDirs p)]
  | e :: rest, n, p =>
    if e.1 = n then (mkdirAt e.2 p).map (fun t => (n, t) :: rest)
    else (mkdirEntries rest n p).map (fun l => e :: l)

end

/-- Model of `file.name().ends_with('/')`. -/
def endsWithSlash (s : String) : Bool := s.data.getLast? = some '/'

/-- Replay one archive entry into the destination tree
(src/archive.rs:169-182): a trailing-slash name is a directory marker,
anything else is a file written at its sanitized path. -/
def restoreEntry (t : ATree) (name : String) (content : List ℕ) : Option ATree :=
  if endsWithSlash name then mkdirAt t (mangledName name)
  else insertAt t (mangledName name) content

/-- Embedding of the extraction loop: fold every archive entry into the
freshly created (empty) destination directory. -/
def restoreEntries (entries : List (String × List ℕ)) : Option ATree :=
  entries.foldlM (fun t e => restoreEntry t e.1 e.2) (ATree.dir [])

/-- Valid directory-entry name on the archiving filesystem: nonempty, not
a dot component, and free of separators and NUL (no real directory entry
can carry those). -/
def validChar (c : Char) : Bool := c ≠ '/' ∧ c ≠ '\\' ∧ c ≠ (Char.ofNat 0)

def validName (s : String) : Bool :=
  s ≠ ("") ∧ s ≠ (".") ∧ s ≠ ("..") ∧ s.data.all validChar

mutual

def hasFile : ATree → Bool
  | .file _ => true
  | .dir es => hasFileList es

def hasFileList : List (String × ATree) → Bool
  | [] => false
  | e :: rest => hasFile e.2 || hasFileList rest

end

def namesNodup : List (String × ATree) → Bool
  | [] => true
  | e :: rest => !(rest.any (fun x => x.1 = e.1)) && namesNodup rest

mutual

def wfTree : ATree → Bool
  | .file _ => true
  | .dir es => namesNodup es && wfList es

def wfList : List (String × ATree) → Bool
  | [] => true
  | e :: rest => (validName e.1 && hasFile e.2 && wfTree e.2) && wfList rest

end

/-- Model of `archive_name.splitn(2, '_').next()` in `restore_archive`
(src/archive.rs:143): the archive name up to the first underscore. -/
def originalName (s : String) : String :=
  String.mk (s.data.takeWhile (fun c => c ≠ '_'))

/-! Specification-side navigation helpers used to reason about the
extraction fold: `getPath` reads the subtree at a component path,
`setPath` replaces it (replacing only the first matching child at each
level, as the extraction does). -/

def replaceEntry : List (String × ATree) → String → ATree → List (String × ATree)
  | [], _, _ => []
  | e :: rest, n, u => if e.1 = n then (n, u) :: rest else e :: replaceEntry rest n u

def getPath : ATree → List String → Option ATree
  | t, [] => some t
  | .file _, _ :: _ => none
  | .dir es, n :: p =>
    match lookupEntry es n with
    | some u => getPath u p
    | none => none

def setPath : ATree → List String → ATree → ATree
  | _, [], u => u
  | .file c, _ :: _, _ => .file c
  | .dir es, n :: p, u =>
    match lookupEntry es n with
    | some s => .dir (replaceEntry es n (setPath s p u))
    | none => .dir es

theorem lookupEntry_replaceEntry (es : List (String × ATree)) (n : String) (w : ATree)
    (h : (lookupEntry es n).isSome) : lookupEntry (replaceEntry es n w) n = some w := by
  induction es with
  | nil => simp [lookupEntry] at h
  | cons e rest ih =>
    by_cases he : e.1 = n
    · simp [replaceEntry, lookupEntry, he]
    · rw [replaceEntry, if_neg he]
      rw [lookupEntry, List.find?] at h ⊢
      rw [show (decide (e.1 = n)) = false by simp [he]] at h ⊢
      exact ih h

theorem replaceEntry_replaceEntry (es : List (String × ATree)) (n : String) (a b : ATree) :
    replaceEntry (replaceEntry es n a) n b = replaceEntry es n b := by
  induction es with
  | nil => simp [replaceEntry]
  | cons e rest ih =>
    by_cases he : e.1 = n
    · simp [replaceEntry, he]
    · simp [replaceEntry, he, ih]

theorem getPath_setPath (P : List String) : ∀ (T s : ATree), getPath T P = some s →
    ∀ (Q : List String) (u : ATree), getPath (setPath T P u) (P ++ Q) = getPath u Q := by
  induction P with
  | nil => intro T s _ Q u; simp [setPath, List.nil_append]
  | cons n P' ih =>
    intro T s hget Q u
    match T with
    | .file c => simp [getPath] at hget
    | .dir es =>
      rw [getPath] at hget
      match hv : lookupEntry es n with
      | none => rw [hv] at hget; simp at hget
      | some v =>
        rw [hv] at hget
        rw [setPath, hv, List.cons_append, getPath,
          lookupEntry_replaceEntry es n _ (by simp [hv])]
        exact ih v s hget Q u

theorem setPath_setPath (P : List String) : ∀ (T s : ATree), getPath T P = some s →
    ∀ (Q : List String) (w u : ATree),
    setPath (setPath T P w) (P ++ Q) u = setPath T P (setPath w Q u) := by
  induction P with
  | nil => intro T s _ Q w u; simp [setPath, List.nil_append]
  | cons n P' ih =>
    intro T s hget Q w u
    match T with
    | .file c => simp [getPath] at hget
    | .dir es =>
      rw [getPath] at hget
      match hv : lookupEntry es n with
      | none => rw [hv] at hget; simp at hget
      | some v =>
        rw [hv] at hget
        rw [setPath, hv, List.cons_append, setPath,
          lookupEntry_replaceEntry es n _ (by simp [hv])]
        show ATree.dir (replaceEntry (replaceEntry es n (setPath v P' w)) n
          (setPath (setPath v P' w) (P' ++ Q) u)) = _
        rw [replaceEntry_replaceEntry, ih v s hget Q w u, setPath, hv]

theorem insertEntries_lookup_some (es : List (String × ATree)) (n : String) (v : ATree)
    (h : lookupEntry es n = some v) (q : List String) (c : List ℕ) :
    insertEntries es n q c = (insertAt v q c).map (fun t => replaceEntry es n t) := by
  induction es with
  | nil => simp [lookupEntry] at h
  | cons e rest ih =>
    by_cases he : e.1 = n
    · rw [lookupEntry, List.find?, show (decide (e.1 = n)) = true by simp [he]] at h
      simp only [Option.map_some'] at h
      cases h
      rw [insertEntries, if_pos he]
      cases hi : insertAt e.2 q c <;> simp [replaceEntry, he]
    · rw [lookupEntry, List.find?, show (decide (e.1 = n)) = false by simp [he]] at h
      rw [insertEntries, if_neg he, ih h]
      cases hi : insertAt v q c <;> simp [replaceEntry, he]

theorem insertEntries_lookup_none (es : List (String × ATree)) (n : String)
    (h : lookupEntry es n = none) (q : List String) (c : List ℕ) :
    insertEntries es n q c = some (es ++ [(n, createAt q c)]) := by
  induction es with
  | nil => simp [insertEntries]
  | cons e rest ih =>
    by_cases he : e.1 = n
    · rw [lookupEntry, List.find?, show (decide (e.1 = n)) = true by simp [he]] at h
      simp at h
    · rw [lookupEntry, List.find?, show (decide (e.1 = n)) = false by simp [he]] at h
      rw [insertEntries, if_neg he, ih h]
      simp

theorem lookupEntry_append_self (es : List (String × ATree)) (n : String)
    (h : lookupEntry es n = none) (s : ATree) :
    lookupEntry (es ++ [(n, s)]) n = some s := by
  induction es with
  | nil => simp [lookupEntry]
  | cons e rest ih =>
    by_cases he : e.1 = n
    · rw [lookupEntry, List.find?, show (decide (e.1 = n)) = true by simp [he]] at h
      simp at h
    · rw [lookupEntry, List.find?, show (decide (e.1 = n)) = false by simp [he]] at h
      rw [List.cons_append, lookupEntry, List.find?,
        show (decide (e.1 = n)) = false by simp [he]]
      exact ih h

theorem replaceEntry_append_self (es : List (String × ATree)) (n : String)
    (h : lookupEntry es n = none) (s w : ATree) :
    replaceEntry (es ++ [(n, s)]) n w = es ++ [(n, w)] := by
  induction es with
  | nil => simp [replaceEntry]
  | cons e rest ih =>
    by_cases he : e.1 = n
    · rw [lookupEntry, List.find?, show (decide (e.1 = n)) = true by simp [he]] at h
      simp at h
    · rw [lookupEntry, List.find?, show (decide (e.1 = n)) = false by simp [he]] at h
      rw [List.cons_append, replaceEntry, if_neg he, ih h]
      rfl

theorem insertAt_getPath (P : List String) : ∀ (T s : ATree), getPath T P = some s →
    ∀ (p : List String) (c : List ℕ),
    insertAt T (P ++ p) c = (insertAt s p c).map (fun w => setPath T P w) := by
  induction P with
  | nil =>
    intro T s hget p c
    rw [getPath] at hget
    cases hget
    simp [setPath]
  | cons n P' ih =>
    intro T s hget p c
    match T with
    | .file c' => simp [getPath] at hget
    | .dir es =>
      rw [getPath] at hget
      match hv : lookupEntry es n with
      | none => rw [hv] at hget; simp at hget
      | some v =>
        rw [hv] at hget
        rw [List.cons_append, insertAt, insertEntries_lookup_some es n v hv, ih v s hget p c]
        cases hi : insertAt s p c <;> simp [setPath, hv]

/-! Auxiliary facts about the file walk and the extraction fold. -/

def prependAll (R : List String) (l : List (List String × List ℕ)) :
    List (List String × List ℕ) :=
  l.map (fun q => (R ++ q.1, q.2))

def restoreList (T : ATree) (l : List (List String × List ℕ)) : Option ATree :=
  l.foldlM (fun t e => insertAt t e.1 e.2) T

theorem prependAll_append (R : List String) (l₁ l₂ : List (List String × List ℕ)) :
    prependAll R (l₁ ++ l₂) = prependAll R l₁ ++ prependAll R l₂ := by
  simp [prependAll]

theorem prependAll_cons_inner (R : List String) (m : String)
    (l : List (List String × List ℕ)) :
    prependAll R (l.map (fun q => (m :: q.1, q.2))) = prependAll (R ++ [m]) l := by
  rw [prependAll, prependAll, List.map_map]
  refine List.map_congr_left ?_
  intro a _
  simp

theorem restoreList_append (T : ATree) (l₁ l₂ : List (List String × List ℕ)) :
    restoreList T (l₁ ++ l₂) = restoreList T l₁ >>= fun T' => restoreList T' l₂ := by
  simp [restoreList, List.foldlM_append]

theorem restoreList_cons (T : ATree) (q : List String × List ℕ)
    (l : List (List String × List ℕ)) :
    restoreList T (q :: l) = insertAt T q.1 q.2 >>= fun T' => restoreList T' l := by
  rfl

theorem walkList_path_ne_nil (cs : List (String × ATree)) :
    ∀ q ∈ walkList cs, q.1 ≠ [] := by
  induction cs with
  | nil => simp [walkList]
  | cons e rest ih =>
    intro q hq
    rw [walkList] at hq
    rcases List.mem_append.mp hq with h | h
    · obtain ⟨q', _, rfl⟩ := List.mem_map.mp h
      simp
    · exact ih q h

theorem wfList_cons {e : String × ATree} {rest : List (String × ATree)}
    (h : wfList (e :: rest) = true) :
    validName e.1 = true ∧ hasFile e.2 = true ∧ wfTree e.2 = true ∧ wfList rest = true := by
  rw [wfList] at h
  simp only [Bool.and_eq_true] at h
  exact ⟨h.1.1.1, h.1.1.2, h.1.2, h.2⟩

theorem namesNodup_lookup (e : String × ATree) (todo : List (String × ATree)) :
    ∀ done : List (String × ATree), namesNodup (done ++ e :: todo) = true →
    lookupEntry done e.1 = none := by
  intro done
  induction done with
  | nil => intro _; rfl
  | cons x rest ih =>
    intro h
    rw [List.cons_append, namesNodup] at h
    simp only [Bool.and_eq_true, Bool.not_eq_true', List.any_eq_false] at h
    have hxe : ¬ (e.1 = x.1) := by
      have := h.1 e (by simp)
      simpa using this
    rw [lookupEntry, List.find?, show (decide (x.1 = e.1)) = false by
      simp; exact fun hc => hxe hc.symm]
    exact ih h.2

theorem walk_ne_nil_aux (N : ℕ) :
    (∀ u : ATree, sizeOf u ≤ N → hasFile u = true → walkFiles u ≠ []) ∧
    (∀ cs : List (String × ATree), sizeOf cs ≤ N → hasFileList cs = true →
      walkList cs ≠ []) := by
  induction N with
  | zero =>
    constructor
    · intro u hu
      exact absurd hu (by cases u <;> simp)
    · intro cs hcs hf
      cases cs with
      | nil => rw [hasFileList] at hf; exact absurd hf (by simp)
      | cons e rest => exact absurd hcs (by simp)
  | succ N ih =>
    constructor
    · intro u hu hf
      match u with
      | .file c => simp [walkFiles]
      | .dir es =>
        rw [walkFiles]
        refine ih.2 es ?_ (by rwa [hasFile] at hf)
        have : sizeOf (ATree.dir es) = 1 + sizeOf es := by simp
        omega
    · intro cs hcs hf
      match cs with
      | [] => rw [hasFileList] at hf; exact absurd hf (by simp)
      | e :: rest =>
        rw [hasFileList] at hf
        rw [walkList]
        rcases Bool.or_eq_true_iff.mp hf with h1 | h2
        · have hw : walkFiles e.2 ≠ [] := by
            refine ih.1 e.2 ?_ h1
            have h3 : sizeOf (e :: rest) = 1 + sizeOf e + sizeOf rest := by simp
            have h4 : sizeOf e.2 ≤ sizeOf e := by
              obtain ⟨a, b⟩ := e
              simp
            omega
          intro hcontra
          rcases List.append_eq_nil.mp hcontra with ⟨hm, _⟩
          exact hw (List.map_eq_nil_iff.mp hm)
        · have hw : walkList rest ≠ [] := by
            refine ih.2 rest ?_ h2
            have h3 : sizeOf (e :: rest) = 1 + sizeOf e + sizeOf rest := by simp
            have h5 : 1 ≤ sizeOf e := by
              obtain ⟨a, b⟩ := e
              simp
              omega
            omega
          intro hcontra
          exact hw (List.append_eq_nil.mp hcontra).2

theorem prependAll_nil (l : List (List String × List ℕ)) : prependAll [] l = l := by
  simp [prependAll]

/-- Seeding step: writing a file strictly below a not-yet-existing child
`n` of the directory at `P` produces the same tree whether or not an
empty directory `n` is materialized first. -/
theorem insertAt_seed (T : ATree) (P : List String) (es : List (String × ATree)) (n : String)
    (hget : getPath T P = some (ATree.dir es)) (hlook : lookupEntry es n = none)
    (m : String) (q : List String) (c : List ℕ) :
    insertAt T ((P ++ [n]) ++ m :: q) c =
      insertAt (setPath T P (ATree.dir (es ++ [(n, ATree.dir [])]))) ((P ++ [n]) ++ m :: q) c := by
  have hPn : (P ++ [n]) ++ m :: q = P ++ (n :: m :: q) := by simp
  have hL : insertAt (ATree.dir es) (n :: m :: q) c =
      some (ATree.dir (es ++ [(n, createAt (m :: q) c)])) := by
    rw [insertAt, insertEntries_lookup_none es n hlook]
    rfl
  have hgetw : getPath (setPath T P (ATree.dir (es ++ [(n, ATree.dir [])]))) P =
      some (ATree.dir (es ++ [(n, ATree.dir [])])) := by
    have h0 := getPath_setPath P T _ hget [] (ATree.dir (es ++ [(n, ATree.dir [])]))
    simpa [getPath] using h0
  have hR : insertAt (ATree.dir (es ++ [(n, ATree.dir [])])) (n :: m :: q) c =
      some (ATree.dir (es ++ [(n, createAt (m :: q) c)])) := by
    rw [insertAt,
      insertEntries_lookup_some _ n _ (lookupEntry_append_self es n hlook _) (m :: q) c]
    rw [show insertAt (ATree.dir []) (m :: q) c = some (createAt (m :: q) c) from by
      rw [insertAt, insertEntries]
      rfl]
    rw [Option.map_some', Option.map_some', replaceEntry_append_self es n hlook]
  have hsps : setPath (setPath T P (ATree.dir (es ++ [(n, ATree.dir [])]))) P
      (ATree.dir (es ++ [(n, createAt (m :: q) c)])) =
      setPath T P (ATree.dir (es ++ [(n, createAt (m :: q) c)])) := by
    have h1 := setPath_setPath P T _ hget [] (ATree.dir (es ++ [(n, ATree.dir [])]))
      (ATree.dir (es ++ [(n, createAt (m :: q) c)]))
    simpa [setPath] using h1
  rw [hPn, insertAt_getPath P T _ hget (n :: m :: q) c, hL,
    insertAt_getPath P _ _ hgetw (n :: m :: q) c, hR,
    Option.map_some', Option.map_some', hsps]

/-- Replaying the file walk of a well-formed tree `u`, with every path
placed below a fresh child name `n` of the directory at `P`, appends
`(n, u)` there. -/
theorem insert_walk_aux (N : ℕ) : ∀ u : ATree, sizeOf u ≤ N → wfTree u = true →
    hasFile u = true →
    ∀ (T : ATree) (P : List String) (es : List (String × ATree)) (n : String),
    getPath T P = some (ATree.dir es) → lookupEntry es n = none →
    restoreList T (prependAll (P ++ [n]) (walkFiles u)) =
      some (setPath T P (ATree.dir (es ++ [(n, u)]))) := by
  induction N with
  | zero =>
    intro u hu
    exact absurd hu (by cases u <;> simp)
  | succ N ih =>
    intro u hu hwf hhf T P es n hget hlook
    match u with
    | .file c =>
      rw [walkFiles]
      rw [show prependAll (P ++ [n]) [([], c)] = [((P ++ [n]) ++ [], c)] from rfl]
      rw [show ((P ++ [n]) ++ [] : List String) = P ++ [n] from by simp]
      rw [restoreList_cons]
      rw [show insertAt T (P ++ [n]) c =
          some (setPath T P (ATree.dir (es ++ [(n, ATree.file c)]))) from by
        rw [insertAt_getPath P T _ hget [n] c,
          show insertAt (ATree.dir es) [n] c =
              some (ATree.dir (es ++ [(n, ATree.file c)])) from by
            rw [insertAt, insertEntries_lookup_none es n hlook]
            rfl,
          Option.map_some']]
      rfl
    | .dir cs =>
      have hszcs : sizeOf cs ≤ N := by
        have h1 : sizeOf (ATree.dir cs) = 1 + sizeOf cs := by simp
        omega
      have hwfl : namesNodup cs = true ∧ wfList cs = true := by
        rw [wfTree] at hwf
        simpa [Bool.and_eq_true] using hwf
      have hhfl : hasFileList cs = true := by rwa [hasFile] at hhf
      rw [walkFiles]
      have INV : ∀ todo : List (String × ATree), sizeOf todo ≤ sizeOf cs →
          wfList todo = true →
          ∀ done : List (String × ATree), namesNodup (done ++ todo) = true →
          ∀ (T : ATree) (P : List String) (es : List (String × ATree)) (n : String),
          getPath T P = some (ATree.dir es) → lookupEntry es n = none →
          restoreList (setPath T P (ATree.dir (es ++ [(n, ATree.dir done)])))
              (prependAll (P ++ [n]) (walkList todo)) =
            some (setPath T P (ATree.dir (es ++ [(n, ATree.dir (done ++ todo))]))) := by
        intro todo
        induction todo with
        | nil =>
          intro _ _ done _ T P es n hget hlook
          simp [walkList, prependAll, restoreList]
        | cons ev todo' ihl =>
          intro hsz hwl done hnd T P es n hget hlook
          obtain ⟨hvn, hvf, hvw, hwl'⟩ := wfList_cons hwl
          rw [walkList, prependAll_append, prependAll_cons_inner, restoreList_append]
          have hget1 : getPath (setPath T P (ATree.dir (es ++ [(n, ATree.dir done)])))
              (P ++ [n]) = some (ATree.dir done) := by
            have h0 := getPath_setPath P T _ hget [n] (ATree.dir (es ++ [(n, ATree.dir done)]))
            rw [h0, getPath, lookupEntry_append_self es n hlook]
            rfl
          have hlook1 : lookupEntry done ev.1 = none := namesNodup_lookup ev todo' done hnd
          have hev2 : sizeOf ev.2 ≤ N := by
            have h3 : sizeOf (ev :: todo') = 1 + sizeOf ev + sizeOf todo' := by simp
            have h4 : sizeOf ev.2 ≤ sizeOf ev := by
              obtain ⟨a, b⟩ := ev
              simp
            omega
          have hstep := ih ev.2 hev2 hvw hvf
            (setPath T P (ATree.dir (es ++ [(n, ATree.dir done)]))) (P ++ [n]) done ev.1
            hget1 hlook1
          rw [hstep]
          have hset : setPath (setPath T P (ATree.dir (es ++ [(n, ATree.dir done)])))
              (P ++ [n]) (ATree.dir (done ++ [(ev.1, ev.2)])) =
              setPath T P (ATree.dir (es ++ [(n, ATree.dir (done ++ [ev]))])) := by
            have h5 := setPath_setPath P T _ hget [n] (ATree.dir (es ++ [(n, ATree.dir done)]))
              (ATree.dir (done ++ [(ev.1, ev.2)]))
            rw [h5, setPath, lookupEntry_append_self es n hlook]
            show setPath T P (ATree.dir (replaceEntry (es ++ [(n, ATree.dir done)]) n
              (setPath (ATree.dir done) [] (ATree.dir (done ++ [(ev.1, ev.2)]))))) = _
            rw [setPath, replaceEntry_append_self es n hlook]
          rw [show (some (setPath (setPath T P (ATree.dir (es ++ [(n, ATree.dir done)])))
              (P ++ [n]) (ATree.dir (done ++ [(ev.1, ev.2)]))) >>=
              fun T' => restoreList T' (prependAll (P ++ [n]) (walkList todo'))) =
              restoreList (setPath (setPath T P (ATree.dir (es ++ [(n, ATree.dir done)])))
                (P ++ [n]) (ATree.dir (done ++ [(ev.1, ev.2)])))
                (prependAll (P ++ [n]) (walkList todo')) from rfl]
          rw [hset]
          have hsz' : sizeOf todo' ≤ sizeOf cs := by
            have h3 : sizeOf (ev :: todo') = 1 + sizeOf ev + sizeOf todo' := by simp
            omega
          have happ : (done ++ [ev]) ++ todo' = done ++ ev :: todo' := by simp
          have hfin := ihl hsz' hwl' (done ++ [ev]) (by rw [happ]; exact hnd)
            T P es n hget hlook
          rw [happ] at hfin
          exact hfin
      have hwne : walkList cs ≠ [] := (walk_ne_nil_aux (sizeOf cs)).2 cs le_rfl hhfl
      obtain ⟨q0, L', hL⟩ : ∃ q0 L', walkList cs = q0 :: L' := by
        cases hw : walkList cs with
        | nil => exact absurd hw hwne
        | cons a b => exact ⟨a, b, rfl⟩
      have hq0 : q0.1 ≠ [] := walkList_path_ne_nil cs q0 (by rw [hL]; simp)
      obtain ⟨m, q', hq⟩ : ∃ m q', q0.1 = m :: q' := by
        cases hh : q0.1 with
        | nil => exact absurd hh hq0
        | cons a b => exact ⟨a, b, rfl⟩
      have hseed : restoreList T (prependAll (P ++ [n]) (walkList cs)) =
          restoreList (setPath T P (ATree.dir (es ++ [(n, ATree.dir [])])))
            (prependAll (P ++ [n]) (walkList cs)) := by
        rw [hL]
        rw [show prependAll (P ++ [n]) (q0 :: L') =
          ((P ++ [n]) ++ q0.1, q0.2) :: prependAll (P ++ [n]) L' from rfl]
        rw [restoreList_cons, restoreList_cons]
        rw [show (((P ++ [n]) ++ q0.1, q0.2).1 : List String) = (P ++ [n]) ++ q0.1 from rfl]
        rw [hq, insertAt_seed T P es n hget hlook m q' q0.2]
      rw [hseed]
      have hfin := INV cs le_rfl hwfl.2 [] (by simpa using hwfl.1) T P es n hget hlook
      simpa using hfin

theorem insert_walk (u : ATree) (hwf : wfTree u = true) (hhf : hasFile u = true)
    (T : ATree) (P : List String) (es : List (String × ATree)) (n : String)
    (hget : getPath T P = some (ATree.dir es)) (hlook : lookupEntry es n = none) :
    restoreList T (prependAll (P ++ [n]) (walkFiles u)) =
      some (setPath T P (ATree.dir (es ++ [(n, u)]))) :=
  insert_walk_aux (sizeOf u) u le_rfl hwf hhf T P es n hget hlook

/-- Replaying the complete file walk of well-formed children `todo` into
a root directory already holding `done` yields `done ++ todo`. -/
theorem restore_walkList : ∀ todo done : List (String × ATree),
    namesNodup (done ++ todo) = true → wfList todo = true →
    restoreList (ATree.dir done) (walkList todo) = some (ATree.dir (done ++ todo)) := by
  intro todo
  induction todo with
  | nil =>
    intro done _ _
    simp [walkList, restoreList]
  | cons ev todo' ih =>
    intro done hnd hwl
    obtain ⟨hvn, hvf, hvw, hwl'⟩ := wfList_cons hwl
    rw [walkList, restoreList_append]
    have hgrp : (walkFiles ev.2).map (fun q => (ev.1 :: q.1, q.2)) =
        prependAll ([] ++ [ev.1]) (walkFiles ev.2) := by
      rw [← prependAll_cons_inner [] ev.1, prependAll_nil]
    rw [hgrp]
    have hstep := insert_walk ev.2 hvw hvf (ATree.dir done) [] done ev.1 rfl
      (namesNodup_lookup ev todo' done hnd)
    rw [hstep]
    rw [show (some (setPath (ATree.dir done) [] (ATree.dir (done ++ [(ev.1, ev.2)]))) >>=
        fun T' => restoreList T' (walkList todo')) =
        restoreList (ATree.dir (done ++ [(ev.1, ev.2)])) (walkList todo') from rfl]
    have happ : (done ++ [ev]) ++ todo' = done ++ ev :: todo' := by simp
    have hfin := ih (done ++ [ev]) (by rw [happ]; exact hnd) hwl'
    rw [happ] at hfin
    exact hfin

/-! Relating the `/`-joined entry names written by the archiver to the
sanitized component lists recovered by the extractor. -/

theorem splitSeps_no_sep (l : List Char) (h : l.all (fun c => !isSep c) = true) :
    splitSeps l = [l] := by
  induction l with
  | nil => rfl
  | cons c cs ih =>
    simp only [List.all_cons, Bool.and_eq_true, Bool.not_eq_true'] at h
    rw [splitSeps, if_neg (by simp [h.1]), ih (by simpa using h.2)]

theorem splitSeps_append_sep (l : List Char) (h : l.all (fun c => !isSep c) = true)
    (r : List Char) : splitSeps (l ++ '/' :: r) = l :: splitSeps r := by
  induction l with
  | nil => rw [List.nil_append, splitSeps, if_pos (by simp [isSep])]
  | cons c cs ih =>
    simp only [List.all_cons, Bool.and_eq_true, Bool.not_eq_true'] at h
    rw [List.cons_append, splitSeps, if_neg (by simp [h.1]), ih (by simpa using h.2)]

theorem validName_data (s : String) (h : validName s = true) :
    s.data ≠ [] ∧ s.data ≠ ['.'] ∧ s.data ≠ ['.', '.'] ∧
    s.data.all (fun c => !isSep c) = true ∧
    s.data.all (fun c => c ≠ (Char.ofNat 0)) = true := by
  rw [validName] at h
  simp only [Bool.and_eq_true, decide_eq_true_eq, List.all_eq_true] at h
  obtain ⟨h1, h2, h3, h4⟩ := h
  have hvc : ∀ c ∈ s.data, c ≠ '/' ∧ c ≠ '\\' ∧ c ≠ (Char.ofNat 0) := by
    intro c hc
    have := h4 c hc
    rw [validChar] at this
    simpa using this
  refine ⟨?_, ?_, ?_, ?_, ?_⟩
  · intro hc; exact h1 (String.ext hc)
  · intro hc; exact h2 (String.ext hc)
  · intro hc; exact h3 (String.ext hc)
  · simp only [List.all_eq_true]
    intro c hc
    have := hvc c hc
    simp [isSep, this.1, this.2.1]
  · simp only [List.all_eq_true]
    intro c hc
    simp [(hvc c hc).2.2]

theorem joinData_takeWhile (p : List String) (hv : ∀ s ∈ p, validName s = true) :
    (joinData p).takeWhile (fun c => c ≠ (Char.ofNat 0)) = joinData p := by
  refine List.takeWhile_eq_self_iff.mpr ?_
  intro c hc
  induction p with
  | nil => simp [joinData] at hc
  | cons x xs ih =>
    match xs with
    | [] =>
      rw [joinData] at hc
      have := (validName_data x (hv x (by simp))).2.2.2.2
      rw [List.all_eq_true] at this
      exact this c hc
    | y :: ys =>
      rw [joinData] at hc
      rcases List.mem_append.mp hc with h | h
      · have := (validName_data x (hv x (by simp))).2.2.2.2
        rw [List.all_eq_true] at this
        exact this c h
      · rcases List.mem_cons.mp h with h | h
        · simp [h]
        · exact ih (fun s hs => hv s (by simp [hs])) h

theorem splitSeps_joinData (p : List String) (hp : p ≠ [])
    (hv : ∀ s ∈ p, validName s = true) :
    splitSeps (joinData p) = p.map String.data := by
  induction p with
  | nil => exact absurd rfl hp
  | cons x xs ih =>
    match xs with
    | [] =>
      rw [joinData]
      exact splitSeps_no_sep x.data (validName_data x (hv x (by simp))).2.2.2.1
    | y :: ys =>
      rw [joinData,
        splitSeps_append_sep x.data (validName_data x (hv x (by simp))).2.2.2.1,
        ih (by simp) (fun s hs => hv s (by simp [hs]))]
      rfl

theorem filter_keep_valid (p : List String) (hv : ∀ s ∈ p, validName s = true) :
    (p.map String.data).filter keepComponent = p.map String.data := by
  refine List.filter_eq_self.mpr ?_
  intro a ha
  obtain ⟨x, hx, rfl⟩ := List.mem_map.mp ha
  have hd := validName_data x (hv x hx)
  rw [keepComponent]
  simp [hd.1, hd.2.1, hd.2.2.1]

theorem mangledName_joinPath (p : List String) (hp : p ≠ [])
    (hv : ∀ s ∈ p, validName s = true) : mangledName (joinPath p) = p := by
  rw [mangledName, joinPath,
    show (String.mk (joinData p)).data = joinData p from rfl,
    joinData_takeWhile p hv, splitSeps_joinData p hp hv, filter_keep_valid p hv,
    List.map_map]
  refine (List.map_congr_left ?_).trans (List.map_id p)
  intro a _
  rfl

theorem joinData_ne_nil (p : List String) (hp : p ≠ [])
    (hv : ∀ s ∈ p, validName s = true) : joinData p ≠ [] := by
  match p with
  | [x] =>
    rw [joinData]
    exact (validName_data x (hv x (by simp))).1
  | x :: y :: ys =>
    rw [joinData]
    intro hc
    exact absurd (List.append_eq_nil.mp hc).2 (by simp)

theorem joinData_getLast_ne_slash (p : List String) (hp : p ≠ [])
    (hv : ∀ s ∈ p, validName s = true) :
    (joinData p).getLast? ≠ some '/' := by
  induction p with
  | nil => exact absurd rfl hp
  | cons x xs ih =>
    match xs with
    | [] =>
      rw [joinData]
      intro hc
      have hmem := List.mem_of_mem_getLast? hc
      have := (validName_data x (hv x (by simp))).2.2.2.1
      rw [List.all_eq_true] at this
      have := this '/' hmem
      simp [isSep] at this
    | y :: ys =>
      rw [joinData, List.getLast?_append_of_ne_nil x.data (by simp)]
      have hjy : joinData (y :: ys) ≠ [] :=
        joinData_ne_nil (y :: ys) (by simp) (fun s hs => hv s (by simp [hs]))
      cases hj : joinData (y :: ys) with
      | nil => exact absurd hj hjy
      | cons b t =>
        rw [List.getLast?_cons_cons]
        have hih := ih (by simp) (fun s hs => hv s (by simp [hs]))
        rwa [hj] at hih

theorem endsWithSlash_joinPath (p : List String) (hp : p ≠ [])
    (hv : ∀ s ∈ p, validName s = true) : endsWithSlash (joinPath p) = false := by
  rw [endsWithSlash, joinPath]
  simpa using joinData_getLast_ne_slash p hp hv

theorem walk_valid_aux (N : ℕ) :
    (∀ u : ATree, sizeOf u ≤ N → wfTree u = true →
      ∀ q ∈ walkFiles u, ∀ s ∈ q.1, validName s = true) ∧
    (∀ cs : List (String × ATree), sizeOf cs ≤ N → wfList cs = true →
      ∀ q ∈ walkList cs, q.1 ≠ [] ∧ ∀ s ∈ q.1, validName s = true) := by
  induction N with
  | zero =>
    constructor
    · intro u hu
      exact absurd hu (by cases u <;> simp)
    · intro cs hcs hwl q hq
      cases cs with
      | nil => simp [walkList] at hq
      | cons e rest => exact absurd hcs (by simp)
  | succ N ih =>
    constructor
    · intro u hu hwf q hq s hs
      match u with
      | .file c =>
        rw [walkFiles] at hq
        simp at hq
        rw [hq] at hs
        simp at hs
      | .dir cs =>
        rw [walkFiles] at hq
        have hwfl : wfList cs = true := by
          rw [wfTree] at hwf
          simp only [Bool.and_eq_true] at hwf
          exact hwf.2
        have hsz : sizeOf cs ≤ N := by
          have h1 : sizeOf (ATree.dir cs) = 1 + sizeOf cs := by simp
          omega
        exact (ih.2 cs hsz hwfl q hq).2 s hs
    · intro cs hcs hwl q hq
      match cs with
      | [] => simp [walkList] at hq
      | e :: rest =>
        obtain ⟨hvn, hvf, hvw, hwl'⟩ := wfList_cons hwl
        rw [walkList] at hq
        have h3 : sizeOf (e :: rest) = 1 + sizeOf e + sizeOf rest := by simp
        rcases List.mem_append.mp hq with h | h
        · obtain ⟨q', hq', rfl⟩ := List.mem_map.mp h
          refine ⟨by simp, ?_⟩
          intro s hs
          rcases List.mem_cons.mp hs with rfl | hs'
          · exact hvn
          · have hsz : sizeOf e.2 ≤ N := by
              have h4 : sizeOf e.2 ≤ sizeOf e := by
                obtain ⟨a, b⟩ := e
                simp
              omega
            exact ih.1 e.2 hsz hvw q' hq' s hs'
        · have hsz : sizeOf rest ≤ N := by
            have h5 : 1 ≤ sizeOf e := by
              obtain ⟨a, b⟩ := e
              simp
              omega
            omega
          exact ih.2 rest hsz hwl' q h

theorem restoreEntries_eq_restoreList (l : List (List String × List ℕ))
    (hl : ∀ q ∈ l, q.1 ≠ [] ∧ ∀ s ∈ q.1, validName s = true) :
    ∀ t : ATree, (l.map (fun q => (joinPath q.1, q.2))).foldlM
        (fun t e => restoreEntry t e.1 e.2) t = restoreList t l := by
  induction l with
  | nil => intro t; rfl
  | cons q l' ih =>
    intro t
    obtain ⟨hq1, hq2⟩ := hl q (by simp)
    rw [List.map_cons, List.foldlM_cons,
      show restoreEntry t (joinPath q.1) q.2 = insertAt t q.1 q.2 from by
        rw [restoreEntry, endsWithSlash_joinPath q.1 hq1 hq2, if_neg (by simp),
          mangledName_joinPath q.1 hq1 hq2],
      restoreList_cons]
    have hl' : ∀ p ∈ l', p.1 ≠ [] ∧ ∀ s ∈ p.1, validName s = true :=
      fun p hp => hl p (by simp [hp])
    cases hi : insertAt t q.1 q.2 with
    | none => rfl
    | some t' =>
      show List.foldlM _ t' _ = restoreList t' l'
      exact ih hl' t'

theorem takeWhile_until_underscore (l : List Char) (h : '_' ∉ l) (r : List Char) :
    (l ++ '_' :: r).takeWhile (fun c => c ≠ '_') = l := by
  induction l with
  | nil => simp [List.takeWhile]
  | cons c cs ih =>
    simp only [List.mem_cons, not_or] at h
    rw [List.cons_append,
      List.takeWhile_cons_of_pos (by simp; exact fun hc => h.1 hc.symm), ih h.2]

/-- C1 (amended): archiving then restoring reproduces the project tree
byte-for-byte — file contents at the same relative paths — provided the
tree contains no empty directory (only regular files are stored, so an
empty directory leaves no archive entry and is not recreated) and entry
names are valid Unix names free of backslashes; the restore destination
directory is named by the archive-name prefix before the first
underscore, which equals the project name whenever the name itself
contains no underscore. -/
theorem archive_restore_roundtrip (es : List (String × ATree)) (name ts : String)
    (hwf : wfTree (ATree.dir es) = true) (hn : '_' ∉ name.data) :
    restoreEntries (archiveEntries (ATree.dir es)) = some (ATree.dir es) ∧
    originalName (name ++ ("_") ++ ts) = name := by
  have hwfl : namesNodup es = true ∧ wfList es = true := by
    rw [wfTree] at hwf
    simpa [Bool.and_eq_true] using hwf
  constructor
  · rw [archiveEntries, restoreEntries, walkFiles]
    have hval := (walk_valid_aux (sizeOf es)).2 es le_rfl hwfl.2
    rw [restoreEntries_eq_restoreList (walkList es) hval (ATree.dir [])]
    have hfin := restore_walkList es [] (by simpa using hwfl.1) hwfl.2
    simpa using hfin
  · rw [originalName,
      show (name ++ ("_") ++ ts).data = name.data ++ '_' :: ts.data from by
        simp [String.data_append],
      takeWhile_until_underscore name.data hn ts.data]

/-- Witness for C1 at a concrete two-level tree and archive name. -/
theorem archive_restore_roundtrip_witness :
    restoreEntries (archiveEntries (ATree.dir
        [(("a"), ATree.dir [(("x"), ATree.file [1, 2])]), (("b"), ATree.file [3])])) =
      some (ATree.dir
        [(("a"), ATree.dir [(("x"), ATree.file [1, 2])]), (("b"), ATree.file [3])]) ∧
    originalName (("demo") ++ ("_") ++ ("20240101_120000")) = ("demo") :=
  archive_restore_roundtrip
    [(("a"), ATree.dir [(("x"), ATree.file [1, 2])]), (("b"), ATree.file [3])]
    ("demo") ("20240101_120000") (by rfl) (by decide)

/-- Counterexample for C1 as stated: a project tree holding one empty
sub-directory produces an archive with no entries, and restoring it
yields the bare destination directory — the empty sub-directory is not
reconstructed, so the restored tree differs from the archived one. -/
theorem archive_restore_cex :
    restoreEntries (archiveEntries (ATree.dir [(("sub"), ATree.dir [])])) =
      some (ATree.dir []) ∧
    some (ATree.dir []) ≠ some (ATree.dir [(("sub"), ATree.dir [])]) := by
  constructor
  · rfl
  · intro h
    simp at h

/-! ## Discovery (`src/project.rs`: `scan_for_proj`, `list_projects`,
`find_project_path`)

The scanned filesystem is modelled as a finite tree of files and
directories.  Each directory carries its canonical-path identifier
(`cid`); a symlink to a directory behaves exactly like the directory
itself under traversal (`read_dir`/`is_dir` follow links) and
canonicalizes to the same `cid`, so it is modelled as a second occurrence
of a node with that `cid`.  The "no symlink cycles" hypothesis of the
claim is what makes the tree finite. -/

inductive FNode where
  | file
  | dir (cid : ℕ) (children : List (String × FNode))

def lookupChild (ch : List (String × FNode)) (n : String) : Option FNode :=
  (ch.find? (fun e => e.1 = n)).map (fun e => e.2)

/-- Model of the scan detection test `path.join(".proj").exists()`
(src/project.rs:264): a child entry named `.proj` exists, of any kind. -/
def hasProjEntry : FNode → Bool
  | .file => false
  | .dir _ ch => ch.any (fun e => e.1 = (".proj"))

/-- Model of the manifest test `path.join(".proj/project.json").is_file()`
used by `list_projects` (src/project.rs:366) and `find_project_path`
(src/project.rs:21). -/
def hasManifest : FNode → Bool
  | .file => false
  | .dir _ ch =>
    match lookupChild ch (".proj") with
    | some (.dir _ ch2) =>
      match lookupChild ch2 ("project.json") with
      | some .file => true
      | _ => false
    | _ => false

mutual

/-- Embedding of the body of `scan_for_proj::visit` for one directory
entry: emit the canonical id on first insertion into the seen-set when a
`.proj` child exists, then descend when recursive. -/
def scanNode (recursive : Bool) : FNode → List ℕ → List ℕ × List ℕ
  | .file, seen => ([], seen)
  | .dir c ch, seen =>
    let p₁ :=
      if ch.any (fun e => e.1 = (".proj")) then
        if c ∈ seen then (([] : List ℕ), seen) else ([c], c :: seen)
      else (([] : List ℕ), seen)
    if recursive then
      let p₂ := scanChildren recursive ch p₁.2
      (p₁.1 ++ p₂.1, p₂.2)
    else p₁

/-- Embedding of the `read_dir` loop of `scan_for_proj::visit`. -/
def scanChildren (recursive : Bool) : List (String × FNode) → List ℕ → List ℕ × List ℕ
  | [], seen => ([], seen)
  | e :: rest, seen =>
    let p₁ := scanNode recursive e.2 seen
    let p₂ := scanChildren recursive rest p₁.2
    (p₁.1 ++ p₂.1, p₂.2)

end

/-- Embedding of `scan_for_proj` (src/project.rs:255): scan the current
directory, then the central projects directory, sharing one seen-set; the
result lists the canonical ids in emission order. -/
def scan_for_proj (recursive : Bool)
    (cwdChildren projChildren : List (String × FNode)) : List ℕ :=
  let p₁ := scanChildren recursive cwdChildren []
  let p₂ := scanChildren recursive projChildren p₁.2
  p₁.1 ++ p₂.1

/-- Model of `name.starts_with('.')`: the first character is a dot. -/
def startsWithDot (s : String) : Bool := s.data.head? = some '.'

mutual

/-- Embedding of the body of `list_projects::visit` for one entry
(src/project.rs:350-376): skip non-directories and hidden names; a
manifest-bearing directory is emitted on first insertion and never
descended into; other directories are recursed. -/
def listNode (name : String) : FNode → List ℕ → List ℕ × List ℕ
  | .file, seen => ([], seen)
  | .dir c ch, seen =>
    if startsWithDot name then ([], seen)
    else if hasManifest (.dir c ch) then
      (if c ∈ seen then (([] : List ℕ), seen) else ([c], c :: seen))
    else listChildren ch seen

def listChildren : List (String × FNode) → List ℕ → List ℕ × List ℕ
  | [], seen => ([], seen)
  | e :: rest, seen =>
    let p₁ := listNode e.1 e.2 seen
    let p₂ := listChildren rest p₁.2
    (p₁.1 ++ p₂.1, p₂.2)

end

/-- Embedding of `list_projects` discovery (src/project.rs:383): visit
the current directory and the central projects directory with one shared
seen-set, always recursively. -/
def list_projects_found (cwdChildren projChildren : List (String × FNode)) : List ℕ :=
  let p₁ := listChildren cwdChildren []
  let p₂ := listChildren projChildren p₁.2
  p₁.1 ++ p₂.1

/-- Embedding of `find_project_path` (src/project.rs:12): walk the
central directory's entries; the first entry whose name matches and whose
`.proj/project.json` is a file wins. -/
def find_project_path_entries : List (String × FNode) → String → Option FNode
  | [], _ => none
  | e :: rest, name =>
    if e.1 = name ∧ hasManifest e.2 = true then some e.2
    else find_project_path_entries rest name

mutual

/-- Canonical ids of the `.proj`-bearing directories in (below) a node,
occurrence by occurrence. -/
def projCidsNode : FNode → List ℕ
  | .file => []
  | .dir c ch =>
    (if ch.any (fun e => e.1 = (".proj")) then [c] else []) ++ projCidsList ch

def projCidsList : List (String × FNode) → List ℕ
  | [] => []
  | e :: rest => projCidsNode e.2 ++ projCidsList rest

end

mutual

/-- Canonical ids of the manifest-bearing directories in (below) a node. -/
def manifestCidsNode : FNode → List ℕ
  | .file => []
  | .dir c ch =>
    (if hasManifest (.dir c ch) then [c] else []) ++ manifestCidsList ch

def manifestCidsList : List (String × FNode) → List ℕ
  | [] => []
  | e :: rest => manifestCidsNode e.2 ++ manifestCidsList rest

end

/-- Recursive-scan characterization: the emitted list has no duplicates,
emits exactly the `.proj`-bearing canonical ids not already seen, and the
final seen-set is the initial one plus all `.proj`-bearing ids. -/
theorem scan_spec_aux (N : ℕ) :
    (∀ n : FNode, sizeOf n ≤ N → ∀ seen : List ℕ,
      (scanNode true n seen).1.Nodup ∧
      (∀ c, c ∈ (scanNode true n seen).1 ↔ (c ∈ projCidsNode n ∧ c ∉ seen)) ∧
      (∀ c, c ∈ (scanNode true n seen).2 ↔ (c ∈ seen ∨ c ∈ projCidsNode n))) ∧
    (∀ ch : List (String × FNode), sizeOf ch ≤ N → ∀ seen : List ℕ,
      (scanChildren true ch seen).1.Nodup ∧
      (∀ c, c ∈ (scanChildren true ch seen).1 ↔ (c ∈ projCidsList ch ∧ c ∉ seen)) ∧
      (∀ c, c ∈ (scanChildren true ch seen).2 ↔ (c ∈ seen ∨ c ∈ projCidsList ch))) := by
  induction N with
  | zero =>
    constructor
    · intro n hn
      exact absurd hn (by cases n <;> simp)
    · intro ch hch seen
      cases ch with
      | nil => simp [scanChildren, projCidsList]
      | cons e rest => exact absurd hch (by simp)
  | succ N ih =>
    constructor
    · intro n hn seen
      match n with
      | .file => simp [scanNode, projCidsNode]
      | .dir c ch =>
        have hsz : sizeOf ch ≤ N := by
          have h1 : sizeOf (FNode.dir c ch) = 1 + sizeOf c + sizeOf ch := by simp
          omega
        by_cases hd : ch.any (fun e => e.1 = (".proj")) = true
        · by_cases hc : c ∈ seen
          · obtain ⟨hnd2, hmem2, hseen2⟩ := ih.2 ch hsz seen
            rw [show scanNode true (FNode.dir c ch) seen =
                ((scanChildren true ch seen).1, (scanChildren true ch seen).2) from by
              rw [scanNode]
              simp [hd, hc]]
            rw [projCidsNode]
            refine ⟨hnd2, ?_, ?_⟩
            · intro x
              rw [hmem2 x]
              simp only [hd, if_true, List.mem_append, List.mem_singleton]
              constructor
              · exact fun hx => ⟨Or.inr hx.1, hx.2⟩
              · rintro ⟨hx1 | hx1, hx2⟩
                · exact absurd (hx1 ▸ hc) hx2
                · exact ⟨hx1, hx2⟩
            · intro x
              rw [hseen2 x]
              simp only [hd, if_true, List.mem_append, List.mem_singleton]
              constructor
              · exact fun hx => hx.imp_right Or.inr
              · rintro (hx | hx1 | hx1)
                · exact Or.inl hx
                · exact Or.inl (hx1 ▸ hc)
                · exact Or.inr hx1
          · obtain ⟨hnd2, hmem2, hseen2⟩ := ih.2 ch hsz (c :: seen)
            rw [show scanNode true (FNode.dir c ch) seen =
                (c :: (scanChildren true ch (c :: seen)).1,
                 (scanChildren true ch (c :: seen)).2) from by
              rw [scanNode]
              simp [hd, hc]]
            rw [projCidsNode]
            refine ⟨?_, ?_, ?_⟩
            · refine List.nodup_cons.mpr ⟨?_, hnd2⟩
              intro hcon
              exact ((hmem2 c).mp hcon).2 (by simp)
            · intro x
              simp only [List.mem_cons, hmem2 x, hd, if_true, List.mem_append,
                List.mem_singleton, List.not_mem_nil, or_false]
              constructor
              · rintro (rfl | ⟨hx1, hx2⟩)
                · exact ⟨Or.inl rfl, hc⟩
                · exact ⟨Or.inr hx1, fun hx => hx2 (by simp [hx])⟩
              · rintro ⟨hx1 | hx1, hx2⟩
                · exact Or.inl hx1
                · by_cases hxc : x = c
                  · exact Or.inl hxc
                  · exact Or.inr ⟨hx1, by simp [hxc, hx2]⟩
            · intro x
              simp only [hseen2 x, List.mem_cons, hd, if_true, List.mem_append,
                List.mem_singleton]
              tauto
        · obtain ⟨hnd2, hmem2, hseen2⟩ := ih.2 ch hsz seen
          rw [show scanNode true (FNode.dir c ch) seen =
              ((scanChildren true ch seen).1, (scanChildren true ch seen).2) from by
            rw [scanNode]
            simp [hd]]
          rw [projCidsNode]
          simp only [hd, if_false, List.nil_append]
          exact ⟨hnd2, hmem2, hseen2⟩
    · intro ch hch seen
      match ch with
      | [] => simp [scanChildren, projCidsList]
      | e :: rest =>
        have hsze : sizeOf e.2 ≤ N := by
          have h1 : sizeOf (e :: rest) = 1 + sizeOf e + sizeOf rest := by simp
          have h2 : sizeOf e.2 ≤ sizeOf e := by
            obtain ⟨a, b⟩ := e
            simp
          omega
        have hszr : sizeOf rest ≤ N := by
          have h1 : sizeOf (e :: rest) = 1 + sizeOf e + sizeOf rest := by simp
          have h2 : 1 ≤ sizeOf e := by
            obtain ⟨a, b⟩ := e
            simp
            omega
          omega
        obtain ⟨hnd1, hmem1, hseen1⟩ := ih.1 e.2 hsze seen
        obtain ⟨hnd2, hmem2, hseen2⟩ := ih.2 rest hszr (scanNode true e.2 seen).2
        rw [show scanChildren true (e :: rest) seen =
            ((scanNode true e.2 seen).1 ++
              (scanChildren true rest (scanNode true e.2 seen).2).1,
             (scanChildren true rest (scanNode true e.2 seen).2).2) from by
          rw [scanChildren]]
        rw [projCidsList]
        refine ⟨?_, ?_, ?_⟩
        · refine List.nodup_append.mpr ⟨hnd1, hnd2, ?_⟩
          intro x hx1 hx2
          have h3 := ((hmem1 x).mp hx1).1
          have h4 := ((hmem2 x).mp hx2).2
          exact h4 ((hseen1 x).mpr (Or.inr h3))
        · intro x
          simp only [List.mem_append, hmem1 x, hmem2 x, hseen1 x]
          constructor
          · rintro (⟨h3, h4⟩ | ⟨h3, h4⟩)
            · exact ⟨Or.inl h3, h4⟩
            · exact ⟨Or.inr h3, fun hx => h4 (Or.inl hx)⟩
          · rintro ⟨h3 | h3, h4⟩
            · exact Or.inl ⟨h3, h4⟩
            · by_cases h5 : x ∈ projCidsNode e.2
              · exact Or.inl ⟨h5, h4⟩
              · exact Or.inr ⟨h3, by tauto⟩
        · intro x
          simp only [List.mem_append, hseen2 x, hseen1 x]
          tauto

/-- C3 (amended): with `.proj`-bearing as the scan's detection criterion
(the scan tests only that a `.proj` entry exists, not that the manifest
file is present), the recursive scan over the two roots — current
directory first, then the central registry, sharing one seen-set —
reports each detected canonical path exactly once: the output has no
duplicates, contains precisely the detected canonical ids of either root,
and its length is the number N of distinct detected canonical
directories, regardless of how many extra routes (registry symlinks)
reach them. -/
theorem scan_dedup_exact (cwdChildren projChildren : List (String × FNode)) :
    (scan_for_proj true cwdChildren projChildren).Nodup ∧
    (∀ c, c ∈ scan_for_proj true cwdChildren projChildren ↔
      (c ∈ projCidsList cwdChildren ∨ c ∈ projCidsList projChildren)) ∧
    (scan_for_proj true cwdChildren projChildren).length =
      (projCidsList cwdChildren ++ projCidsList projChildren).dedup.length := by
  obtain ⟨hnd1, hmem1, hseen1⟩ :=
    (scan_spec_aux (sizeOf cwdChildren)).2 cwdChildren le_rfl []
  obtain ⟨hnd2, hmem2, hseen2⟩ :=
    (scan_spec_aux (sizeOf projChildren)).2 projChildren le_rfl
      (scanChildren true cwdChildren []).2
  rw [show scan_for_proj true cwdChildren projChildren =
      (scanChildren true cwdChildren []).1 ++
        (scanChildren true projChildren (scanChildren true cwdChildren []).2).1 from rfl]
  have hmem : ∀ c, c ∈ (scanChildren true cwdChildren []).1 ++
      (scanChildren true projChildren (scanChildren true cwdChildren []).2).1 ↔
      (c ∈ projCidsList cwdChildren ∨ c ∈ projCidsList projChildren) := by
    intro c
    simp only [List.mem_append, hmem1 c, hmem2 c, hseen1 c, List.not_mem_nil,
      not_false_iff, and_true, false_or]
    tauto
  have hnodup : ((scanChildren true cwdChildren []).1 ++
      (scanChildren true projChildren (scanChildren true cwdChildren []).2).1).Nodup := by
    refine List.nodup_append.mpr ⟨hnd1, hnd2, ?_⟩
    intro x hx1 hx2
    have h3 := ((hmem1 x).mp hx1).1
    have h4 := ((hmem2 x).mp hx2).2
    exact h4 ((hseen1 x).mpr (Or.inr h3))
  refine ⟨hnodup, hmem, ?_⟩
  have h1 := List.toFinset_card_of_nodup hnodup
  have h2 := List.toFinset_card_of_nodup
    (List.nodup_dedup (projCidsList cwdChildren ++ projCidsList projChildren))
  have h3 : ((scanChildren true cwdChildren []).1 ++
      (scanChildren true projChildren (scanChildren true cwdChildren []).2).1).toFinset =
      ((projCidsList cwdChildren ++ projCidsList projChildren).dedup).toFinset := by
    refine Finset.ext fun x => ?_
    simp only [List.mem_toFinset, List.mem_dedup, List.mem_append, hmem x]
  have h4 := congrArg Finset.card h3
  omega

/-- Counterexample for C3 as stated: a directory whose `.proj`
sub-directory exists but holds no `project.json` is a tree with N = 0
manifest-bearing directories, yet the scan reports one canonical path. -/
theorem scan_count_cex :
    scan_for_proj true [(("a"), FNode.dir 1 [((".proj"), FNode.dir 2 [])])] [] = [1] ∧
    (manifestCidsList [(("a"), FNode.dir 1 [((".proj"), FNode.dir 2 [])])] ++
      manifestCidsList ([] : List (String × FNode))).dedup.length = 0 :=
  ⟨rfl, rfl⟩

/-- Listing emits only manifest-bearing canonical ids. -/
theorem list_sound_aux (N : ℕ) :
    (∀ n : FNode, sizeOf n ≤ N → ∀ (name : String) (seen : List ℕ) (c : ℕ),
      c ∈ (listNode name n seen).1 → c ∈ manifestCidsNode n) ∧
    (∀ ch : List (String × FNode), sizeOf ch ≤ N → ∀ (seen : List ℕ) (c : ℕ),
      c ∈ (listChildren ch seen).1 → c ∈ manifestCidsList ch) := by
  induction N with
  | zero =>
    constructor
    · intro n hn
      exact absurd hn (by cases n <;> simp)
    · intro ch hch seen c hc
      cases ch with
      | nil => simp [listChildren] at hc
      | cons e rest => exact absurd hch (by simp)
  | succ N ih =>
    constructor
    · intro n hn name seen c hc
      match n with
      | .file => simp [listNode] at hc
      | .dir cid ch =>
        have hsz : sizeOf ch ≤ N := by
          have h1 : sizeOf (FNode.dir cid ch) = 1 + sizeOf cid + sizeOf ch := by simp
          omega
        rw [listNode] at hc
        by_cases hh : startsWithDot name = true
        · rw [if_pos hh] at hc
          simp at hc
        · rw [if_neg hh] at hc
          by_cases hm : hasManifest (FNode.dir cid ch) = true
          · rw [if_pos hm] at hc
            rw [manifestCidsNode, hm, if_pos rfl]
            by_cases hcs : cid ∈ seen
            · rw [if_pos hcs] at hc
              simp at hc
            · rw [if_neg hcs] at hc
              simp at hc
              simp [hc]
          · rw [if_neg hm] at hc
            have h2 := ih.2 ch hsz seen c hc
            rw [manifestCidsNode]
            simp [h2]
    · intro ch hch seen c hc
      match ch with
      | [] => simp [listChildren] at hc
      | e :: rest =>
        have hsze : sizeOf e.2 ≤ N := by
          have h1 : sizeOf (e :: rest) = 1 + sizeOf e + sizeOf rest := by simp
          have h2 : sizeOf e.2 ≤ sizeOf e := by
            obtain ⟨a, b⟩ := e
            simp
          omega
        have hszr : sizeOf rest ≤ N := by
          have h1 : sizeOf (e :: rest) = 1 + sizeOf e + sizeOf rest := by simp
          have h2 : 1 ≤ sizeOf e := by
            obtain ⟨a, b⟩ := e
            simp
            omega
          omega
        rw [show listChildren (e :: rest) seen =
            ((listNode e.1 e.2 seen).1 ++
              (listChildren rest (listNode e.1 e.2 seen).2).1,
             (listChildren rest (listNode e.1 e.2 seen).2).2) from by
          rw [listChildren]] at hc
        rw [manifestCidsList]
        rcases List.mem_append.mp hc with h | h
        · exact List.mem_append.mpr (Or.inl (ih.1 e.2 hsze e.1 seen c h))
        · exact List.mem_append.mpr
            (Or.inr (ih.2 rest hszr (listNode e.1 e.2 seen).2 c h))

/-- C4 (amended): the three discovery and resolution operations do not
share one project criterion.  `list_projects` and `find_project_path`
classify a directory as a project only when `.proj/project.json` is a
file: every canonical id the listing reports is manifest-bearing, and
registry resolution only returns manifest-bearing entries.  The scan
(`scan_for_proj`), however, classifies by mere existence of a `.proj`
entry: it reports exactly the `.proj`-bearing directories, so a directory
whose `.proj` exists without the manifest file is still reported by
scan (though never by list or resolve). -/
theorem project_detection_criteria
    (entries cwdChildren projChildren : List (String × FNode)) (name : String) :
    (∀ n, find_project_path_entries entries name = some n → hasManifest n = true) ∧
    (∀ c, c ∈ list_projects_found cwdChildren projChildren →
      (c ∈ manifestCidsList cwdChildren ∨ c ∈ manifestCidsList projChildren)) ∧
    (∀ c, c ∈ scan_for_proj true cwdChildren projChildren ↔
      (c ∈ projCidsList cwdChildren ∨ c ∈ projCidsList projChildren)) := by
  refine ⟨?_, ?_, ?_⟩
  · induction entries with
    | nil =>
      intro n h
      simp [find_project_path_entries] at h
    | cons e rest ih =>
      intro n h
      rw [find_project_path_entries] at h
      by_cases hc : e.1 = name ∧ hasManifest e.2 = true
      · rw [if_pos hc] at h
        cases h
        exact hc.2
      · rw [if_neg hc] at h
        exact ih n h
  · intro c hc
    rcases List.mem_append.mp hc with h | h
    · exact Or.inl ((list_sound_aux (sizeOf cwdChildren)).2 cwdChildren le_rfl [] c h)
    · exact Or.inr ((list_sound_aux (sizeOf projChildren)).2 projChildren le_rfl
        (listChildren cwdChildren []).2 c h)
  · obtain ⟨hnd1, hmem1, hseen1⟩ :=
      (scan_spec_aux (sizeOf cwdChildren)).2 cwdChildren le_rfl []
    obtain ⟨hnd2, hmem2, hseen2⟩ :=
      (scan_spec_aux (sizeOf projChildren)).2 projChildren le_rfl
        (scanChildren true cwdChildren []).2
    intro c
    rw [show scan_for_proj true cwdChildren projChildren =
        (scanChildren true cwdChildren []).1 ++
          (scanChildren true projChildren (scanChildren true cwdChildren []).2).1 from rfl]
    simp only [List.mem_append, hmem1 c, hmem2 c, hseen1 c, List.not_mem_nil,
      not_false_iff, and_true, false_or]
    tauto

/-- Witness for C4 at concrete inputs: a manifest-bearing registry entry
resolves (and is indeed manifest-bearing), and a listed project is
manifest-bearing. -/
theorem project_detection_criteria_witness :
    hasManifest (FNode.dir 7 [((".proj"), FNode.dir 8 [(("project.json"), FNode.file)])])
      = true ∧
    (7 ∈ manifestCidsList
        [(("p"), FNode.dir 7 [((".proj"), FNode.dir 8 [(("project.json"), FNode.file)])])] ∨
      7 ∈ manifestCidsList ([] : List (String × FNode))) :=
  ⟨(project_detection_criteria
      [(("p"), FNode.dir 7 [((".proj"), FNode.dir 8 [(("project.json"), FNode.file)])])]
      [] [] ("p")).1
      (FNode.dir 7 [((".proj"), FNode.dir 8 [(("project.json"), FNode.file)])]) (by rfl),
   (project_detection_criteria []
      [(("p"), FNode.dir 7 [((".proj"), FNode.dir 8 [(("project.json"), FNode.file)])])]
      [] ("p")).2.1 7 (by decide)⟩

/-- Counterexample for C4 as stated: a directory with an empty `.proj`
sub-directory and no `project.json` is not manifest-bearing, yet the
discovery scan reports it as a project. -/
theorem proj_without_manifest_cex :
    hasManifest (FNode.dir 1 [((".proj"), FNode.dir 2 [])]) = false ∧
    scan_for_proj true [(("a"), FNode.dir 1 [((".proj"), FNode.dir 2 [])])] [] = [1] :=
  ⟨rfl, rfl⟩

/-! ## Stateful lifecycle operations (`src/project.rs`: `migrate_project`,
`remove_project`; `src/archive.rs`: `restore_archive`)

The filesystem is a finite map from absolute paths (component lists) to
objects: directory, regular file, or symlink with an absolute target.
Path resolution follows symlinks with a step budget (`fuel`), erring on
missing prefixes exactly as `fs::canonicalize` does.  Every operation
returns the post-call state together with its result, so "the filesystem
is untouched" is literal state equality. -/

abbrev FPath := List String

inductive FsObj where
  | dirO
  | fileO
  | symlinkO (target : FPath)
  deriving DecidableEq

abbrev FS := List (FPath × FsObj)

def lookupRaw (fs : FS) (p : FPath) : Option FsObj :=
  (fs.find? (fun e => e.1 = p)).map (fun e => e.2)

/-- Model of `fs::canonicalize` (and of the kernel's path resolution):
walk the components from `acc`, requiring every prefix to exist,
restarting at an absolute symlink target; `fuel` bounds the total number
of resolution steps. -/
def canon (fs : FS) : ℕ → FPath → FPath → Option FPath
  | 0, _, _ => none
  | fuel + 1, acc, p =>
    match p with
    | [] => some acc
    | c :: rest =>
      match lookupRaw fs (acc ++ [c]) with
      | none => none
      | some FsObj.dirO => canon fs fuel (acc ++ [c]) rest
      | some FsObj.fileO =>
        match rest with
        | [] => some (acc ++ [c])
        | _ :: _ => none
      | some (FsObj.symlinkO t) => canon fs fuel [] (t ++ rest)

/-- Model of `Path::exists` (follows symlinks; false on any resolution
failure, including a dangling symlink). -/
def existsFS (fs : FS) (fuel : ℕ) (p : FPath) : Bool := (canon fs fuel [] p).isSome

/-- Model of `Path::is_symlink`: the object at the path itself, without
following a final symlink. -/
def isSymlinkFS (fs : FS) (p : FPath) : Bool :=
  match lookupRaw fs p with
  | some (FsObj.symlinkO _) => true
  | _ => false

/-- Model of `.is_file()` (follows symlinks). -/
def isFileFS (fs : FS) (fuel : ℕ) (p : FPath) : Bool :=
  match canon fs fuel [] p with
  | some cp => lookupRaw fs cp = some FsObj.fileO
  | none => false

/-- Model of `fs::create_dir_all`: create every missing prefix of `p` as
a directory. -/
def mkdirAll (fs : FS) (p : FPath) : FS :=
  (List.range p.length).foldl
    (fun acc i =>
      let q := p.take (i + 1)
      if (lookupRaw acc q).isSome then acc else acc ++ [(q, FsObj.dirO)])
    fs

/-- Model of `fs::rename src dst` for a canonical `src`: every entry at
or below `src` moves to the corresponding path below `dst` (symlink
targets, being stored values, are not rewritten — as on a real
filesystem). -/
def renameFS (fs : FS) (src dst : FPath) : FS :=
  fs.map (fun e =>
    if src.isPrefixOf e.1 then (dst ++ e.1.drop src.length, e.2) else e)

/-- Model of `fs::remove_file`. -/
def removeFileFS (fs : FS) (p : FPath) : FS := fs.filter (fun e => ¬ e.1 = p)

/-- Model of `fs::remove_dir_all` on a plain directory path. -/
def removeDirAllFS (fs : FS) (p : FPath) : FS :=
  fs.filter (fun e => !(p.isPrefixOf e.1))

inductive MErr where
  | notFound
  | conflict
  | ioErr
  deriving DecidableEq

/-- Embedding of `find_project_path` (src/project.rs:12) over the state
model: the central directory has a child named `name` (of any kind) whose
`.proj/project.json` resolves to a file; the entry path (not
canonicalized) is returned. -/
def find_project_path (fs : FS) (fuel : ℕ) (home : FPath) (name : String) : Option FPath :=
  let p := home ++ [("projects"), name]
  if (lookupRaw fs p).isSome ∧
      isFileFS fs fuel (p ++ [(".proj"), ("project.json")]) = true then some p
  else none

/-- Name resolution of `migrate_project`: the registry first, then a
same-named entry in the current working directory. -/
def migrate_resolve (fs : FS) (fuel : ℕ) (home cwd : FPath) (name : String) : Option FPath :=
  (find_project_path fs fuel home name).orElse (fun _ =>
    if existsFS fs fuel (cwd ++ [name]) then some (cwd ++ [name]) else none)

/-- Embedding of `migrate_project` (src/project.rs:470). -/
def migrate_project (fs : FS) (fuel : ℕ) (home cwd : FPath) (name : String)
    (destination : Option FPath) : FS × Except MErr Unit :=
  match migrate_resolve fs fuel home cwd name with
  | none => (fs, Except.error MErr.notFound)
  | some project_path =>
    match canon fs fuel [] project_path with
    | none => (fs, Except.error MErr.ioErr)
    | some real_path =>
      if existsFS fs fuel ((destination.getD (home ++ [("projects")])) ++ [name]) then
        (fs, Except.error MErr.conflict)
      else
        let fs₂ := renameFS (mkdirAll fs (destination.getD (home ++ [("projects")])))
          real_path ((destination.getD (home ++ [("projects")])) ++ [name])
        if existsFS fs₂ fuel project_path ∧ isSymlinkFS fs₂ project_path = true then
          (removeFileFS fs₂ project_path, Except.ok ())
        else (fs₂, Except.ok ())

def get_archives_dir (home : FPath) : FPath := home ++ [(".proj"), ("archives")]

/-- Extraction loop of `restore_archive` at the state level: directory
markers create directories, other entries create parent directories and
write the file at the sanitized path. -/
def extractEntries (fs : FS) (dest : FPath) (entries : List String) : FS :=
  entries.foldl
    (fun acc name =>
      let outpath := dest ++ mangledName name
      if endsWithSlash name then mkdirAll acc outpath
      else removeFileFS (mkdirAll acc outpath.dropLast) outpath ++ [(outpath, FsObj.fileO)])
    fs

/-- Embedding of `restore_archive` (src/archive.rs:133) over the state
model; the archive's entry names are supplied as `zipEntries`. -/
def restore_archive (fs : FS) (fuel : ℕ) (home : FPath) (archiveName : String)
    (destination : Option FPath) (zipEntries : List String) : FS × Except MErr Unit :=
  if existsFS fs fuel (get_archives_dir home ++ [archiveName ++ (".zip")]) then
    let dest_path := (destination.getD (home ++ [("projects")])) ++ [originalName archiveName]
    if existsFS fs fuel dest_path then (fs, Except.error MErr.conflict)
    else
      let fs₂ := extractEntries (mkdirAll fs dest_path) dest_path zipEntries
      if (home ++ [("projects")]).isPrefixOf dest_path then (fs₂, Except.ok ())
      else
        let symlink_path := home ++ [("projects"), originalName archiveName]
        let fs₃ := if existsFS fs₂ fuel symlink_path then removeFileFS fs₂ symlink_path else fs₂
        (fs₃ ++ [(symlink_path, FsObj.symlinkO dest_path)], Except.ok ())
  else (fs, Except.error MErr.notFound)

/-- Model of `input.trim().to_lowercase()` matched against `y`/`yes`
(ASCII, which covers the two accepted answers). -/
def isWhitespaceChar (c : Char) : Bool := c = ' ' ∨ c = '\t' ∨ c = '\n' ∨ c = '\r'

def lowerChar (c : Char) : Char :=
  if 'A' ≤ c ∧ c ≤ 'Z' then Char.ofNat (c.toNat + 32) else c

def affirmative (input : String) : Bool :=
  let t := String.mk ((((input.data.dropWhile isWhitespaceChar).reverse.dropWhile
    isWhitespaceChar).reverse).map lowerChar)
  t = ("y") ∨ t = ("yes")

/-- Embedding of `remove_project` (src/project.rs:510): registry-only
resolution; without `force`, a non-affirmative reply aborts with success
and no state change. -/
def remove_project (fs : FS) (fuel : ℕ) (home : FPath) (name : String)
    (force : Bool) (input : String) : FS × Except MErr Unit :=
  match find_project_path fs fuel home name with
  | none => (fs, Except.error MErr.notFound)
  | some project_path =>
    if force = false ∧ affirmative input = false then (fs, Except.ok ())
    else
      let fs₁ := removeDirAllFS fs project_path
      if (home ++ [("projects")]).isPrefixOf project_path then (fs₁, Except.ok ())
      else
        let symlink_path := home ++ [("projects"), name]
        let fs₂ :=
          if existsFS fs₁ fuel symlink_path then removeFileFS fs₁ symlink_path else fs₁
        (fs₂, Except.ok ())

/-- Filesystem fixture: project `p` registered through a symlink, its
real tree under `/real/p`, plus an empty `/dest` directory. -/
def migrateFS : FS := [
  ([("home")], FsObj.dirO), ([("home"), ("projects")], FsObj.dirO),
  ([("home"), ("projects"), ("p")], FsObj.symlinkO [("real"), ("p")]),
  ([("real")], FsObj.dirO), ([("real"), ("p")], FsObj.dirO),
  ([("real"), ("p"), (".proj")], FsObj.dirO),
  ([("real"), ("p"), (".proj"), ("project.json")], FsObj.fileO),
  ([("dest")], FsObj.dirO)]

/-- C5 (code bug): migrating the symlink-registered project `p` to
`/dest` succeeds and relocates the real tree, yet the old registry
symlink survives as a dangling entry.  The cleanup guard evaluates
`project_path.exists()` before `is_symlink()`, and `exists()` follows the
now-dangling link and returns false, so the `remove_file` never runs —
contradicting the documented behavior that the old registry symlink is
deleted. -/
theorem migrate_symlink_not_cleaned :
    (migrate_project migrateFS 20 [("home")] [("cwd")] ("p") (some [("dest")])).2
      = Except.ok () ∧
    lookupRaw (migrate_project migrateFS 20 [("home")] [("cwd")] ("p") (some [("dest")])).1
      [("home"), ("projects"), ("p")] = some (FsObj.symlinkO [("real"), ("p")]) ∧
    isSymlinkFS (migrate_project migrateFS 20 [("home")] [("cwd")] ("p") (some [("dest")])).1
      [("home"), ("projects"), ("p")] = true ∧
    existsFS (migrate_project migrateFS 20 [("home")] [("cwd")] ("p") (some [("dest")])).1
      20 [("home"), ("projects"), ("p")] = false := by
  refine ⟨rfl, rfl, rfl, rfl⟩

/-- C6: when the destination already holds an entry with the project's
name, migrate fails with the conflict error and returns the filesystem
unchanged: the pre-flight existence check runs before any directory
creation or rename. -/
theorem migrate_conflict_untouched (fs : FS) (fuel : ℕ) (home cwd : FPath)
    (name : String) (destination : Option FPath) (project_path real_path : FPath)
    (hres : migrate_resolve fs fuel home cwd name = some project_path)
    (hcanon : canon fs fuel [] project_path = some real_path)
    (hdest : existsFS fs fuel
      ((destination.getD (home ++ [("projects")])) ++ [name]) = true) :
    migrate_project fs fuel home cwd name destination =
      (fs, Except.error MErr.conflict) := by
  simp [migrate_project, hres, hcanon, hdest]

/-- Witness for C6 on the fixture with an occupied destination. -/
theorem migrate_conflict_untouched_witness :
    migrate_project (migrateFS ++ [([("dest"), ("p")], FsObj.dirO)]) 20 [("home")]
      [("cwd")] ("p") (some [("dest")]) =
      (migrateFS ++ [([("dest"), ("p")], FsObj.dirO)], Except.error MErr.conflict) :=
  migrate_conflict_untouched _ 20 _ _ _ _ [("home"), ("projects"), ("p")]
    [("real"), ("p")] (by decide) (by decide) (by decide)

/-- C7: when the archive exists but the resolved destination directory
already exists, restore fails with the conflict error and returns the
filesystem unchanged — the check precedes every write (directory
creation, extraction, registry symlink handling). -/
theorem restore_conflict_untouched (fs : FS) (fuel : ℕ) (home : FPath)
    (archiveName : String) (destination : Option FPath) (zipEntries : List String)
    (harch : existsFS fs fuel (get_archives_dir home ++ [archiveName ++ (".zip")]) = true)
    (hdest : existsFS fs fuel
      ((destination.getD (home ++ [("projects")])) ++ [originalName archiveName]) = true) :
    restore_archive fs fuel home archiveName destination zipEntries =
      (fs, Except.error MErr.conflict) := by
  simp [restore_archive, harch, hdest]

/-- Filesystem fixture for restore: archive `demo_1.zip` present and a
project `demo` already sitting in the registry. -/
def restoreFS : FS := [
  ([("home")], FsObj.dirO), ([("home"), (".proj")], FsObj.dirO),
  ([("home"), (".proj"), ("archives")], FsObj.dirO),
  ([("home"), (".proj"), ("archives"), ("demo_1.zip")], FsObj.fileO),
  ([("home"), ("projects")], FsObj.dirO),
  ([("home"), ("projects"), ("demo")], FsObj.dirO)]

/-- Witness for C7 on the fixture. -/
theorem restore_conflict_untouched_witness :
    restore_archive restoreFS 20 [("home")] ("demo_1") none [("a")] =
      (restoreFS, Except.error MErr.conflict) :=
  restore_conflict_untouched restoreFS 20 [("home")] ("demo_1") none [("a")]
    (by decide) (by decide)

/-- C9: with a resolvable project and no `force`, any non-affirmative
reply to the confirmation prompt makes remove return success while
leaving the filesystem byte-for-byte unchanged: neither the project
directory nor any registry symlink is deleted. -/
theorem remove_nonaffirmative_noop (fs : FS) (fuel : ℕ) (home : FPath)
    (name input : String) (project_path : FPath)
    (hres : find_project_path fs fuel home name = some project_path)
    (hinput : affirmative input = false) :
    remove_project fs fuel home name false input = (fs, Except.ok ()) := by
  simp [remove_project, hres, hinput]

/-- Filesystem fixture for remove: project `p` lives inside the
registry. -/
def removeFS : FS := [
  ([("home")], FsObj.dirO), ([("home"), ("projects")], FsObj.dirO),
  ([("home"), ("projects"), ("p")], FsObj.dirO),
  ([("home"), ("projects"), ("p"), (".proj")], FsObj.dirO),
  ([("home"), ("projects"), ("p"), (".proj"), ("project.json")], FsObj.fileO)]

/-- Witness for C9 on the fixture with answer `n`. -/
theorem remove_nonaffirmative_noop_witness :
    remove_project removeFS 20 [("home")] ("p") false ("n") = (removeFS, Except.ok ()) :=
  remove_nonaffirmative_noop removeFS 20 [("home")] ("p") ("n")
    [("home"), ("projects"), ("p")] (by decide) (by decide)

end Proj
